import Mathlib

/-! # Verification of the sorting library and benchmark harness

Shallow embedding of `algorithms/sorting.py` and the measurement logic of
`experiments/experiment.py`.

The Python functions are generic over a type `T` supporting the comparisons
`<`, `<=`, `>`, `==` of one total order.  We embed such a `T` as a type `α`
together with a key function `key : α → κ` into a linear order `κ`: the
Python comparisons `x < y`, `x <= y`, `x > y`, `x == y` on elements become
`key x < key y`, `key x ≤ key y`, `key y < key x`, `key x = key y`.
Taking `κ := α` and `key := id` recovers a plainly linearly ordered element
type; a non-injective `key` models elements that compare equal while being
distinguishable, which is what the stability claims are about.
-/

variable {α : Type*} {κ : Type*} [LinearOrder κ]

/-- Sortedness: the keys are non-decreasing along the list. -/
abbrev SortedBy (key : α → κ) (l : List α) : Prop :=
  List.Pairwise (fun a b => key a ≤ key b) l

/-- The subsequence of elements whose key is `k`, in their original relative
order.  Two lists with the same `keyFilter` for every `k` contain the same
elements with every group of equal-keyed elements in the same relative
order; this is the standard rendering of stability. -/
def keyFilter (key : α → κ) (k : κ) (l : List α) : List α :=
  l.filter (fun x => decide (key x = k))

/-- Modelled from the spec: the platform reference sort (Python's built-in
`sorted`), described as "the platform's built-in adaptive stable
mergesort-family sort": a stable comparison sort producing a new list in
non-decreasing key order.  Rendered as the canonical stable insertion
sort; any stable sort equals it (see `sortedBy_keyFilter_unique`). -/
def refInsert (key : α → κ) (x : α) : List α → List α
  | [] => [x]
  | y :: ys => if key x ≤ key y then x :: y :: ys else y :: refInsert key x ys

/-- Modelled from the spec: the platform reference ordering `sorted(a)`. -/
def sortedRef (key : α → κ) : List α → List α
  | [] => []
  | x :: xs => refInsert key x (sortedRef key xs)

/-! ## `bubble_sort` (sorting.py lines 23-49)

One inner `for j in range(0, n - 1 - i)` pass compares adjacent elements of
the prefix `a[0 .. n-1-i]` and swaps out-of-order pairs, carrying the larger
element rightward; `bpass` is that pass on the prefix as a list, returning
the updated prefix and the `swapped` flag.  The outer `for i in range(n)`
loop is `bubbleLoop`, whose counter `k` is the length `n - i` of the prefix
the next pass will traverse; it stops early when a pass reports no swap. -/

/-- The inner loop from position `j` onward, with `cur` the element
currently at position `j` and the remaining prefix elements as a list:
`a[j] > a[j+1]` (here `key y < key cur`) swaps the pair and sets the flag,
carrying the larger element rightward. -/
def bpassGo (key : α → κ) (cur : α) : List α → List α × Bool
  | [] => ([cur], false)
  | y :: ys =>
    if key y < key cur then
      -- source lines 43-45: a[j] > a[j+1] → swap and set swapped = True
      (y :: (bpassGo key cur ys).1, true)
    else
      let r := bpassGo key y ys
      (cur :: r.1, r.2)

def bpass (key : α → κ) : List α → List α × Bool
  | [] => ([], false)
  | x :: xs => bpassGo key x xs

def bubbleLoop (key : α → κ) : ℕ → List α → List α
  | 0, a => a
  | k + 1, a =>
    let r := bpass key (a.take (k + 1))
    let a' := r.1 ++ a.drop (k + 1)
    if r.2 then bubbleLoop key k a' else a'

def bubble_sort (key : α → κ) (arr : List α) : List α :=
  bubbleLoop key arr.length arr

/-- Variant of `bubbleLoop` without the `if not swapped: break` early
exit: every remaining pass is executed. -/
def bubbleLoopNoExit (key : α → κ) : ℕ → List α → List α
  | 0, a => a
  | k + 1, a => bubbleLoopNoExit key k ((bpass key (a.take (k + 1))).1 ++ a.drop (k + 1))

/-- All intermediate states of `bubbleLoop`, each paired with the loop
counter at which it is entered: `(n, arr)` first, then after each completed
pass the state entering the next iteration (or the final state when the
no-swap early exit fires).  The state paired with counter `k` has had
`n - k` passes applied to it. -/
def bubbleTrace (key : α → κ) : ℕ → List α → List (ℕ × List α)
  | 0, a => [(0, a)]
  | k + 1, a =>
    let r := bpass key (a.take (k + 1))
    let a' := r.1 ++ a.drop (k + 1)
    if r.2 then (k + 1, a) :: bubbleTrace key k a' else [(k + 1, a), (k, a')]

/-! ## `insertion_sort` (sorting.py lines 52-75)

The sorted prefix is held in reversed order (`revp`), so that its head is
`a[j]` for `j = i - 1`, the element the `while j >= 0 and a[j] > key` scan
inspects first.  `shiftInsert` is that scan: it walks past the elements
shifted rightward (those with key strictly greater than the new element's)
and places the new element where the scan stops. -/

def shiftInsert (key : α → κ) (x : α) : List α → List α
  | [] => [x]
  | y :: ys => if key x < key y then y :: shiftInsert key x ys else x :: y :: ys

def insLoop (key : α → κ) : List α → List α → List α
  | revp, [] => revp.reverse
  | revp, x :: xs => insLoop key (shiftInsert key x revp) xs

def insertion_sort (key : α → κ) (arr : List α) : List α :=
  insLoop key [] arr

/-! ## `merge_sort` (sorting.py lines 78-111) -/

/-- The inner `_merge` of `merge_sort`: while both lists are nonempty take
the left front when `left[i] <= right[j]`, otherwise the right front; then
append whichever remainder is nonempty. -/
def mergeLists (key : α → κ) : List α → List α → List α
  | [], r => r
  | l, [] => l
  | x :: xs, y :: ys =>
    if key x ≤ key y then x :: mergeLists key xs (y :: ys)
    else y :: mergeLists key (x :: xs) ys
termination_by l r => l.length + r.length

def merge_sort (key : α → κ) (arr : List α) : List α :=
  if arr.length ≤ 1 then arr
  else
    mergeLists key (merge_sort key (arr.take (arr.length / 2)))
      (merge_sort key (arr.drop (arr.length / 2)))
termination_by arr.length
decreasing_by
  · simp only [List.length_take]; omega
  · simp only [List.length_drop]; omega

/-- Written from the spec's words, for comparison with `mergeLists`:
"merge two sorted halves by repeatedly taking the lesser of the two
fronts, taking the LEFT side's element on ties". -/
def specMerge (key : α → κ) : List α → List α → List α
  | [], r => r
  | l, [] => l
  | x :: xs, y :: ys =>
    if key y < key x then y :: specMerge key (x :: xs) ys
    else x :: specMerge key xs (y :: ys)
termination_by l r => l.length + r.length

/-- Written from the spec's words, for comparison with `merge_sort`:
"recursively split into two halves (`mid = len // 2`, left = [0,mid),
right = [mid,end)); base case len ≤ 1 returns a copy". -/
def mergeSortSpec (key : α → κ) (arr : List α) : List α :=
  if arr.length ≤ 1 then arr
  else
    specMerge key (mergeSortSpec key (arr.take (arr.length / 2)))
      (mergeSortSpec key (arr.drop (arr.length / 2)))
termination_by arr.length
decreasing_by
  · simp only [List.length_take]; omega
  · simp only [List.length_drop]; omega

/-! ## `quick_sort` (sorting.py lines 114-139) -/

def quick_sort (key : α → κ) (arr : List α) : List α :=
  if h : arr.length ≤ 1 then arr
  else
    let pivot := key (arr.get ⟨arr.length / 2, Nat.div_lt_self (by omega) (by omega)⟩)
    quick_sort key (arr.filter (fun x => decide (key x < pivot))) ++
      arr.filter (fun x => decide (key x = pivot)) ++
      quick_sort key (arr.filter (fun x => decide (pivot < key x)))
termination_by arr.length
decreasing_by
  · refine List.length_filter_lt_length_iff_exists.2
      ⟨arr.get ⟨arr.length / 2, Nat.div_lt_self (by omega) (by omega)⟩, arr.get_mem _ _, ?_⟩
    simp
  · refine List.length_filter_lt_length_iff_exists.2
      ⟨arr.get ⟨arr.length / 2, Nat.div_lt_self (by omega) (by omega)⟩, arr.get_mem _ _, ?_⟩
    simp

/-! ## `python_sort` (sorting.py lines 142-147) -/

/-- Source line 147: `python_sort` returns `sorted(arr)`, the platform
reference sort. -/
def python_sort (key : α → κ) (arr : List α) : List α :=
  sortedRef key arr

/-! ## The measurement harness (experiment.py lines 38-71)

`run_experiments` iterates over the five algorithms by display name, skips
sizes above 1024 for the two quadratic algorithms, runs `trials` timed
trials per remaining size, and records `(n, statistics.mean(times),
statistics.pstdev(times))`.  Wall-clock elapsed times are modelled as an
abstract function `time : name → size → trial index → ℚ`; the elapsed
times are data to the aggregation logic, which is what is verified. -/

def algoNames : List String := ["Bubble", "Insertion", "Merge", "Quick", "Timsort"]

/-- experiment.py lines 57-60: `sizes_to_run` for one algorithm. -/
def sizesToRun (name : String) (sizes : List ℕ) : List ℕ :=
  if name = "Bubble" ∨ name = "Insertion" then
    sizes.filter (fun s => decide (s ≤ 1024))
  else sizes

/-- Modelled from the spec: `statistics.mean`, the arithmetic mean. -/
def mean (ts : List ℚ) : ℚ :=
  ts.sum / (ts.length : ℚ)

/-- Modelled from the spec: the square of `statistics.pstdev`, i.e. the
population variance with divisor `n` (not `n - 1`).  The standard
deviation itself is the square root of this value, which is irrational in
general; the claims concern the divisor, which the variance carries. -/
def pvariance (ts : List ℚ) : ℚ :=
  (ts.map (fun t => (t - mean ts) ^ 2)).sum / (ts.length : ℚ)

/-- The `trials` elapsed times collected for one `(algorithm, size)` pair
(experiment.py lines 63-67). -/
def trialTimes (time : String → ℕ → ℕ → ℚ) (trials : ℕ) (name : String) (n : ℕ) : List ℚ :=
  (List.range trials).map (time name n)

/-- One row appended to `results[name]` (experiment.py lines 68-70). -/
def measureOne (time : String → ℕ → ℕ → ℚ) (trials : ℕ) (name : String) (n : ℕ) :
    ℕ × ℚ × ℚ :=
  (n, mean (trialTimes time trials name n), pvariance (trialTimes time trials name n))

/-- The measurement results of `run_experiments` (experiment.py lines
55-71): for each algorithm in declaration order, one aggregated row per
size it is run at. -/
def runExperiments (time : String → ℕ → ℕ → ℚ) (sizes : List ℕ) (trials : ℕ) :
    List (String × List (ℕ × ℚ × ℚ)) :=
  algoNames.map (fun name => (name, (sizesToRun name sizes).map (measureOne time trials name)))

/-! ## The command-line surface (experiment.py lines 111-121) -/

/-- Modelled from the spec: `argparse` converts each numeric option with
`int(...)`; a token that is not an optionally signed decimal integer
literal is rejected at parse time with a usage error and a non-zero exit
status.  `digitsToNat` is the value of a non-empty all-digit string. -/
def digitsToNat (cs : List Char) : Option ℕ :=
  if cs = [] ∨ ¬ cs.all Char.isDigit then none
  else some (cs.foldl (fun n c => 10 * n + (c.toNat - 48)) 0)

/-- Modelled from the spec: `int(token)` as used by `argparse` for the
`--min-power`, `--max-power`, `--trials` and `--seed` options. -/
def parseIntToken (s : String) : Option ℤ :=
  match s.data with
  | '+' :: cs => (digitsToNat cs).map (fun n => (n : ℤ))
  | '-' :: cs => (digitsToNat cs).map (fun n => -(n : ℤ))
  | cs => (digitsToNat cs).map (fun n => (n : ℤ))

/-- experiment.py line 120: `sizes = [2 ** p for p in range(args.min_power,
args.max_power + 1)]`. -/
def buildSizes (minP maxP : ℤ) : List ℕ :=
  (List.range (maxP + 1 - minP).toNat).map (fun i => 2 ^ (minP + i).toNat)

/-- What a command-line invocation does after argument handling: either a
usage error at parse time (non-zero exit status) or a call of
`run_experiments` with the computed size list. -/
inductive CliOutcome where
  | usageError : CliOutcome
  | run : List ℕ → CliOutcome
deriving DecidableEq

/-- Entry point `main` (experiment.py lines 111-121): `argparse` rejects tokens that
fail integer conversion; any parsed values are passed on unvalidated, the
size list is built, and `run_experiments` is called. -/
def mainOutcome (minTok maxTok trialsTok seedTok : String) : CliOutcome :=
  match parseIntToken minTok, parseIntToken maxTok,
      parseIntToken trialsTok, parseIntToken seedTok with
  | some mn, some mx, some _, some _ => .run (buildSizes mn mx)
  | _, _, _, _ => .usageError

example : bubble_sort (id : ℤ → ℤ) [5, 1, 3, 5, 2, 1, 4] = [1, 1, 2, 3, 4, 5, 5] := by decide
example : insertion_sort (id : ℤ → ℤ) [5, 1, 3, 5, 2, 1, 4] = [1, 1, 2, 3, 4, 5, 5] := by decide
example : python_sort (id : ℤ → ℤ) [5, 1, 3, 5, 2, 1, 4] = [1, 1, 2, 3, 4, 5, 5] := by decide
example : mainOutcome "5" "3" "3" "0" = .run [] := by decide
example : mainOutcome "abc" "3" "3" "0" = .usageError := by decide
example : mainOutcome "-2" "3" "3" "0" ≠ .usageError := by decide

/-! ## Basic facts about `keyFilter` and `SortedBy` -/

theorem keyFilter_nil (key : α → κ) (k : κ) : keyFilter key k [] = [] := rfl

theorem keyFilter_cons (key : α → κ) (k : κ) (x : α) (l : List α) :
    keyFilter key k (x :: l) =
      if key x = k then x :: keyFilter key k l else keyFilter key k l := by
  simp only [keyFilter, List.filter_cons, decide_eq_true_eq]

theorem keyFilter_append (key : α → κ) (k : κ) (l₁ l₂ : List α) :
    keyFilter key k (l₁ ++ l₂) = keyFilter key k l₁ ++ keyFilter key k l₂ := by
  simp [keyFilter, List.filter_append]

theorem mem_keyFilter {key : α → κ} {k : κ} {x : α} {l : List α} :
    x ∈ keyFilter key k l ↔ x ∈ l ∧ key x = k := by
  simp [keyFilter, List.mem_filter]

/-- Two sorted lists with the same elements in the same relative order
within every equal-key group are equal: a stable sort's output is uniquely
determined. -/
theorem sortedBy_keyFilter_unique (key : α → κ) :
    ∀ l₁ l₂ : List α, SortedBy key l₁ → SortedBy key l₂ →
      (∀ k, keyFilter key k l₁ = keyFilter key k l₂) → l₁ = l₂ := by
  intro l₁
  induction l₁ with
  | nil =>
    intro l₂ _ _ hf
    cases l₂ with
    | nil => rfl
    | cons y t₂ =>
      have h := hf (key y)
      rw [keyFilter_nil, keyFilter_cons, if_pos rfl] at h
      exact absurd h (by simp)
  | cons x t₁ ih =>
    intro l₂ h₁ h₂ hf
    cases l₂ with
    | nil =>
      have h := hf (key x)
      rw [keyFilter_cons, keyFilter_nil, if_pos rfl] at h
      exact absurd h (by simp)
    | cons y t₂ =>
      have hx₂ : x ∈ y :: t₂ := by
        have hmem : x ∈ keyFilter key (key x) (y :: t₂) := by
          rw [← hf (key x)]
          exact mem_keyFilter.2 ⟨List.mem_cons_self x t₁, rfl⟩
        exact (mem_keyFilter.1 hmem).1
      have hy₁ : y ∈ x :: t₁ := by
        have hmem : y ∈ keyFilter key (key y) (x :: t₁) := by
          rw [hf (key y)]
          exact mem_keyFilter.2 ⟨List.mem_cons_self y t₂, rfl⟩
        exact (mem_keyFilter.1 hmem).1
      have hxy : key x = key y := by
        have hle₁ : key x ≤ key y := by
          rcases List.mem_cons.1 hy₁ with h | h
          · exact le_of_eq (congrArg key h).symm
          · exact (List.pairwise_cons.1 h₁).1 y h
        have hle₂ : key y ≤ key x := by
          rcases List.mem_cons.1 hx₂ with h | h
          · exact le_of_eq (congrArg key h).symm
          · exact (List.pairwise_cons.1 h₂).1 x h
        exact le_antisymm hle₁ hle₂
      have hhead := hf (key x)
      rw [keyFilter_cons, keyFilter_cons, if_pos rfl, if_pos hxy.symm] at hhead
      rw [List.cons.injEq] at hhead
      obtain ⟨hxey, htx⟩ := hhead
      subst hxey
      have hft : ∀ k, keyFilter key k t₁ = keyFilter key k t₂ := by
        intro k
        by_cases hk : key x = k
        · subst hk; exact htx
        · have h := hf k
          rw [keyFilter_cons, keyFilter_cons, if_neg hk, if_neg hk] at h
          exact h
      rw [ih t₂ (List.pairwise_cons.1 h₁).2 (List.pairwise_cons.1 h₂).2 hft]

/-! ## Properties of the reference sort `sortedRef` -/

theorem refInsert_perm (key : α → κ) (x : α) (l : List α) :
    List.Perm (refInsert key x l) (x :: l) := by
  induction l with
  | nil => simp [refInsert]
  | cons y ys ih =>
    rw [refInsert]
    split
    · exact List.Perm.refl _
    · exact (ih.cons y).trans (List.Perm.swap x y ys)

theorem mem_refInsert {key : α → κ} {x z : α} {l : List α} :
    z ∈ refInsert key x l ↔ z = x ∨ z ∈ l := by
  rw [(refInsert_perm key x l).mem_iff, List.mem_cons]

theorem refInsert_sortedBy (key : α → κ) {x : α} {l : List α} (h : SortedBy key l) :
    SortedBy key (refInsert key x l) := by
  induction l with
  | nil => simp [refInsert]
  | cons y ys ih =>
    rw [refInsert]
    rcases List.pairwise_cons.1 h with ⟨hy, hys⟩
    split
    · rename_i hxy
      exact List.pairwise_cons.2 ⟨by
        intro z hz
        rcases List.mem_cons.1 hz with h | h
        · exact h ▸ hxy
        · exact le_trans hxy (hy z h), h⟩
    · rename_i hxy
      push_neg at hxy
      refine List.pairwise_cons.2 ⟨?_, ih hys⟩
      intro z hz
      rcases mem_refInsert.1 hz with h | h
      · exact h ▸ le_of_lt hxy
      · exact hy z h

theorem keyFilter_refInsert (key : α → κ) (k : κ) (x : α) (l : List α) :
    keyFilter key k (refInsert key x l) =
      if key x = k then x :: keyFilter key k l else keyFilter key k l := by
  induction l with
  | nil => rw [refInsert, keyFilter_cons, keyFilter_nil]
  | cons y ys ih =>
    rw [refInsert]
    split
    · rw [keyFilter_cons]
    · rename_i hxy
      push_neg at hxy
      rw [keyFilter_cons, keyFilter_cons, ih]
      by_cases hxk : key x = k
      · have hyk : key y ≠ k := fun h => absurd (hxk.trans h.symm) (ne_of_gt hxy)
        simp [hxk, hyk]
      · simp [hxk]

theorem sortedRef_sortedBy (key : α → κ) (l : List α) : SortedBy key (sortedRef key l) := by
  induction l with
  | nil => exact List.Pairwise.nil
  | cons x xs ih => exact refInsert_sortedBy key ih

theorem keyFilter_sortedRef (key : α → κ) (k : κ) (l : List α) :
    keyFilter key k (sortedRef key l) = keyFilter key k l := by
  induction l with
  | nil => rfl
  | cons x xs ih =>
    rw [sortedRef, keyFilter_refInsert, keyFilter_cons, ih]

theorem sortedRef_perm (key : α → κ) (l : List α) : List.Perm (sortedRef key l) l := by
  induction l with
  | nil => exact List.Perm.refl _
  | cons x xs ih => exact (refInsert_perm key x (sortedRef key xs)).trans (ih.cons x)

/-- Any list that is sorted and key-filter-stable relative to `l` is
exactly the reference sort of `l`. -/
theorem eq_sortedRef_of_sorted_stable {key : α → κ} {l out : List α}
    (hs : SortedBy key out) (hf : ∀ k, keyFilter key k out = keyFilter key k l) :
    out = sortedRef key l :=
  sortedBy_keyFilter_unique key out (sortedRef key l) hs (sortedRef_sortedBy key l)
    (fun k => (hf k).trans (keyFilter_sortedRef key k l).symm)

/-! ## Properties of one bubble pass -/

theorem bpassGo_length (key : α → κ) (cur : α) (l : List α) :
    ((bpassGo key cur l).1).length = l.length + 1 := by
  induction l generalizing cur with
  | nil => rfl
  | cons y ys ih =>
    simp only [bpassGo]
    split
    · simpa using ih cur
    · simpa using ih y

theorem bpassGo_perm (key : α → κ) (cur : α) (l : List α) :
    List.Perm ((bpassGo key cur l).1) (cur :: l) := by
  induction l generalizing cur with
  | nil => exact List.Perm.refl _
  | cons y ys ih =>
    simp only [bpassGo]
    split
    · exact ((ih cur).cons y).trans (List.Perm.swap cur y ys)
    · exact (ih y).cons cur

theorem bpassGo_keyFilter (key : α → κ) (k : κ) (cur : α) (l : List α) :
    keyFilter key k ((bpassGo key cur l).1) = keyFilter key k (cur :: l) := by
  induction l generalizing cur with
  | nil => rfl
  | cons y ys ih =>
    simp only [bpassGo]
    split
    · rename_i hlt
      by_cases hck : key cur = k
      · have hyk : key y ≠ k := by
          intro h
          rw [h, hck] at hlt
          exact lt_irrefl k hlt
        simp [keyFilter_cons, ih cur, hck, hyk]
      · simp [keyFilter_cons, ih cur, hck]
    · simp [keyFilter_cons, ih y]

theorem bpassGo_false (key : α → κ) (cur : α) (l : List α)
    (h : (bpassGo key cur l).2 = false) :
    (bpassGo key cur l).1 = cur :: l ∧ SortedBy key (cur :: l) := by
  induction l generalizing cur with
  | nil => exact ⟨rfl, List.pairwise_singleton _ _⟩
  | cons y ys ih =>
    by_cases hc : key y < key cur
    · simp [bpassGo, hc] at h
    · have h' : (bpassGo key y ys).2 = false := by simpa [bpassGo, hc] using h
      obtain ⟨he, hs⟩ := ih y h'
      refine ⟨by simp [bpassGo, hc, he], ?_⟩
      have hcy : key cur ≤ key y := not_lt.1 hc
      refine List.pairwise_cons.2 ⟨?_, hs⟩
      intro z hz
      rcases List.mem_cons.1 hz with h | h
      · exact h ▸ hcy
      · exact le_trans hcy ((List.pairwise_cons.1 hs).1 z h)

theorem bpassGo_of_sorted (key : α → κ) (cur : α) (l : List α)
    (h : SortedBy key (cur :: l)) : bpassGo key cur l = (cur :: l, false) := by
  induction l generalizing cur with
  | nil => rfl
  | cons y ys ih =>
    rcases List.pairwise_cons.1 h with ⟨hcur, hys⟩
    have hc : ¬ key y < key cur := not_lt.2 (hcur y (List.mem_cons_self y ys))
    simp [bpassGo, hc, ih y hys]

theorem bpassGo_max (key : α → κ) (cur : α) (l : List α) :
    ∃ q m, (bpassGo key cur l).1 = q ++ [m] ∧ ∀ z ∈ cur :: l, key z ≤ key m := by
  induction l generalizing cur with
  | nil => exact ⟨[], cur, rfl, by simp⟩
  | cons y ys ih =>
    by_cases hc : key y < key cur
    · obtain ⟨q, m, he, hm⟩ := ih cur
      refine ⟨y :: q, m, by simp [bpassGo, hc, he], ?_⟩
      intro z hz
      rcases List.mem_cons.1 hz with h | h
      · exact h ▸ hm cur (List.mem_cons_self _ _)
      rcases List.mem_cons.1 h with h' | h'
      · exact h' ▸ le_trans (le_of_lt hc) (hm cur (List.mem_cons_self _ _))
      · exact hm z (List.mem_cons_of_mem _ h')
    · obtain ⟨q, m, he, hm⟩ := ih y
      refine ⟨cur :: q, m, by simp [bpassGo, hc, he], ?_⟩
      intro z hz
      rcases List.mem_cons.1 hz with h | h
      · exact h ▸ le_trans (not_lt.1 hc) (hm y (List.mem_cons_self _ _))
      · exact hm z h

theorem bpass_length (key : α → κ) (l : List α) :
    ((bpass key l).1).length = l.length := by
  cases l with
  | nil => rfl
  | cons x xs => simpa [bpass] using bpassGo_length key x xs

theorem bpass_perm (key : α → κ) (l : List α) : List.Perm ((bpass key l).1) l := by
  cases l with
  | nil => exact List.Perm.refl _
  | cons x xs => simpa [bpass] using bpassGo_perm key x xs

theorem bpass_keyFilter (key : α → κ) (k : κ) (l : List α) :
    keyFilter key k ((bpass key l).1) = keyFilter key k l := by
  cases l with
  | nil => rfl
  | cons x xs => simpa [bpass] using bpassGo_keyFilter key k x xs

theorem bpass_false (key : α → κ) (l : List α) (h : (bpass key l).2 = false) :
    (bpass key l).1 = l ∧ SortedBy key l := by
  cases l with
  | nil => exact ⟨rfl, List.Pairwise.nil⟩
  | cons x xs => exact bpassGo_false key x xs h

theorem bpass_of_sorted (key : α → κ) (l : List α) (h : SortedBy key l) :
    bpass key l = (l, false) := by
  cases l with
  | nil => rfl
  | cons x xs => simpa [bpass] using bpassGo_of_sorted key x xs h

theorem bpass_max (key : α → κ) (x : α) (xs : List α) :
    ∃ q m, (bpass key (x :: xs)).1 = q ++ [m] ∧ ∀ z ∈ x :: xs, key z ≤ key m := by
  simpa [bpass] using bpassGo_max key x xs

/-! ## Properties of the bubble sort outer loop -/

theorem bubbleLoop_length (key : α → κ) :
    ∀ (j : ℕ) (a : List α), (bubbleLoop key j a).length = a.length := by
  intro j
  induction j with
  | zero => intro a; rfl
  | succ j ih =>
    intro a
    simp only [bubbleLoop]
    split
    · rw [ih]
      simp only [List.length_append, bpass_length, List.length_take, List.length_drop]
      omega
    · simp only [List.length_append, bpass_length, List.length_take, List.length_drop]
      omega

theorem bubbleLoop_keyFilter (key : α → κ) (k : κ) :
    ∀ (j : ℕ) (a : List α), keyFilter key k (bubbleLoop key j a) = keyFilter key k a := by
  intro j
  induction j with
  | zero => intro a; rfl
  | succ j ih =>
    intro a
    simp only [bubbleLoop]
    have hstep : keyFilter key k ((bpass key (a.take (j + 1))).1 ++ a.drop (j + 1)) =
        keyFilter key k a := by
      rw [keyFilter_append, bpass_keyFilter, ← keyFilter_append, List.take_append_drop]
    split
    · rw [ih, hstep]
    · exact hstep

theorem bubbleLoop_drop (key : α → κ) :
    ∀ (j : ℕ) (a : List α), j ≤ a.length → (bubbleLoop key j a).drop j = a.drop j := by
  intro j
  induction j with
  | zero => intro a _; rfl
  | succ j ih =>
    intro a hj
    simp only [bubbleLoop]
    have hp : ((bpass key (a.take (j + 1))).1).length = j + 1 := by
      rw [bpass_length, List.length_take]; omega
    have hdrop : ((bpass key (a.take (j + 1))).1 ++ a.drop (j + 1)).drop (j + 1) =
        a.drop (j + 1) := List.drop_left' hp
    split
    · have hlen : j ≤ ((bpass key (a.take (j + 1))).1 ++ a.drop (j + 1)).length := by
        rw [List.length_append, hp]; omega
      calc (bubbleLoop key j ((bpass key (a.take (j + 1))).1 ++ a.drop (j + 1))).drop (j + 1)
          = ((bubbleLoop key j ((bpass key (a.take (j + 1))).1 ++ a.drop (j + 1))).drop j).drop 1 := by
            rw [List.drop_drop]
        _ = (((bpass key (a.take (j + 1))).1 ++ a.drop (j + 1)).drop j).drop 1 := by
            rw [ih _ hlen]
        _ = ((bpass key (a.take (j + 1))).1 ++ a.drop (j + 1)).drop (j + 1) := by
            rw [List.drop_drop]
        _ = a.drop (j + 1) := hdrop
    · exact hdrop

theorem bubbleLoop_sorted (key : α → κ) :
    ∀ (j : ℕ) (a : List α), j ≤ a.length →
      SortedBy key (a.drop j) →
      (∀ x ∈ a.take j, ∀ y ∈ a.drop j, key x ≤ key y) →
      SortedBy key (bubbleLoop key j a) := by
  intro j
  induction j with
  | zero =>
    intro a _ hs _
    simpa using hs
  | succ j ih =>
    intro a hj hs hcross
    obtain ⟨c, cs, hpfx⟩ : ∃ c cs, a.take (j + 1) = c :: cs := by
      cases htk : a.take (j + 1) with
      | nil =>
        exfalso
        have := congrArg List.length htk
        simp only [List.length_take, List.length_nil] at this
        omega
      | cons c cs => exact ⟨c, cs, rfl⟩
    have hmem_p : ∀ z ∈ (bpass key (a.take (j + 1))).1, z ∈ a.take (j + 1) :=
      fun z hz => (bpass_perm key _).subset hz
    simp only [bubbleLoop]
    split
    · -- a swap happened: recurse with the bubbled-up maximum fixed at position j
      obtain ⟨q, m, he, hm'⟩ :
          ∃ q m, (bpass key (a.take (j + 1))).1 = q ++ [m] ∧
            ∀ z ∈ a.take (j + 1), key z ≤ key m := by
        rw [hpfx]; exact bpass_max key c cs
      have hq_len : q.length = j := by
        have := congrArg List.length he
        rw [bpass_length, List.length_take] at this
        simp only [List.length_append, List.length_singleton] at this
        omega
      have hm_mem : m ∈ a.take (j + 1) := by
        refine hmem_p m ?_
        rw [he]
        exact List.mem_append_right q (List.mem_singleton_self m)
      have hq_sub : ∀ x ∈ q, x ∈ a.take (j + 1) := by
        intro x hx
        refine hmem_p x ?_
        rw [he]
        exact List.mem_append_left [m] hx
      have ha' : (bpass key (a.take (j + 1))).1 ++ a.drop (j + 1) =
          q ++ (m :: a.drop (j + 1)) := by
        rw [he, List.append_assoc, List.singleton_append]
      rw [ha']
      refine ih (q ++ (m :: a.drop (j + 1))) ?_ ?_ ?_
      · simp only [List.length_append, List.length_cons, hq_len]; omega
      · rw [List.drop_left' hq_len]
        refine List.pairwise_cons.2 ⟨fun y hy => hcross m hm_mem y hy, hs⟩
      · intro x hx y hy
        rw [List.take_left' hq_len] at hx
        rw [List.drop_left' hq_len] at hy
        rcases List.mem_cons.1 hy with h | h
        · exact h ▸ hm' x (hq_sub x hx)
        · exact hcross x (hq_sub x hx) y h
    · -- no swap: the pass left the prefix unchanged and certified it sorted
      rename_i hr
      obtain ⟨hpe, hps⟩ := bpass_false key (a.take (j + 1)) (by simpa using hr)
      rw [hpe]
      exact List.pairwise_append.2 ⟨hps, hs, hcross⟩

theorem bubble_sort_sortedBy (key : α → κ) (arr : List α) :
    SortedBy key (bubble_sort key arr) :=
  bubbleLoop_sorted key arr.length arr le_rfl (by simp) (by simp)

theorem bubble_sort_keyFilter (key : α → κ) (k : κ) (arr : List α) :
    keyFilter key k (bubble_sort key arr) = keyFilter key k arr :=
  bubbleLoop_keyFilter key k arr.length arr

theorem bubble_sort_eq_sortedRef (key : α → κ) (arr : List α) :
    bubble_sort key arr = sortedRef key arr :=
  eq_sortedRef_of_sorted_stable (bubble_sort_sortedBy key arr)
    (fun k => bubble_sort_keyFilter key k arr)

/-! ## The early exit does not change the result -/

theorem sortedBy_take_of_sortedBy {key : α → κ} {l : List α} (h : SortedBy key l) (j : ℕ) :
    SortedBy key (l.take j) :=
  List.Pairwise.sublist (List.take_sublist j l) h

theorem bubbleLoop_of_sorted_take (key : α → κ) (j : ℕ) (a : List α)
    (h : SortedBy key (a.take j)) : bubbleLoop key j a = a := by
  cases j with
  | zero => rfl
  | succ j =>
    simp only [bubbleLoop, bpass_of_sorted key (a.take (j + 1)) h]
    simp [List.take_append_drop]

theorem bubbleLoopNoExit_of_sorted_take (key : α → κ) :
    ∀ (j : ℕ) (a : List α), SortedBy key (a.take j) → bubbleLoopNoExit key j a = a := by
  intro j
  induction j with
  | zero => intro a _; rfl
  | succ j ih =>
    intro a h
    simp only [bubbleLoopNoExit, bpass_of_sorted key (a.take (j + 1)) h,
      List.take_append_drop]
    refine ih a ?_
    have ht : a.take j = (a.take (j + 1)).take j := by
      rw [List.take_take, min_eq_left (by omega)]
    rw [ht]
    exact sortedBy_take_of_sortedBy h j

/-- Dropping the `if not swapped: break` early exit yields the same final
list from any loop state. -/
theorem bubbleLoopNoExit_eq_bubbleLoop (key : α → κ) :
    ∀ (j : ℕ) (a : List α), bubbleLoopNoExit key j a = bubbleLoop key j a := by
  intro j
  induction j with
  | zero => intro a; rfl
  | succ j ih =>
    intro a
    simp only [bubbleLoop, bubbleLoopNoExit]
    cases hr : (bpass key (a.take (j + 1))).2 with
    | true => simp only [hr, if_true]; exact ih _
    | false =>
      simp only [hr, Bool.false_eq_true, if_false]
      obtain ⟨hpe, hps⟩ := bpass_false key (a.take (j + 1)) hr
      rw [hpe, List.take_append_drop]
      refine bubbleLoopNoExit_of_sorted_take key j a ?_
      have ht : a.take j = (a.take (j + 1)).take j := by
        rw [List.take_take, min_eq_left (by omega)]
      rw [ht]
      exact sortedBy_take_of_sortedBy hps j

/-! ## The intermediate states of the loop -/

theorem bubbleLoop_run_of_trace (key : α → κ) :
    ∀ (j : ℕ) (a : List α), j ≤ a.length → ∀ p ∈ bubbleTrace key j a,
      p.1 ≤ p.2.length ∧ bubbleLoop key p.1 p.2 = bubbleLoop key j a ∧
        p.2.length = a.length := by
  intro j
  induction j with
  | zero =>
    intro a hj p hp
    simp only [bubbleTrace, List.mem_singleton] at hp
    subst hp
    exact ⟨Nat.zero_le _, rfl, rfl⟩
  | succ j ih =>
    intro a hj p hp
    simp only [bubbleTrace] at hp
    have hlen' : ((bpass key (a.take (j + 1))).1 ++ a.drop (j + 1)).length = a.length := by
      simp only [List.length_append, bpass_length, List.length_take, List.length_drop]
      omega
    cases hr : (bpass key (a.take (j + 1))).2 with
    | true =>
      rw [hr] at hp
      simp only [if_true, List.mem_cons] at hp
      rcases hp with hp | hp
      · subst hp
        exact ⟨hj, by simp only [bubbleLoop, hr, if_true], rfl⟩
      · obtain ⟨h1, h2, h3⟩ := ih ((bpass key (a.take (j + 1))).1 ++ a.drop (j + 1))
          (by omega) p hp
        refine ⟨h1, h2.trans ?_, h3.trans hlen'⟩
        simp only [bubbleLoop, hr, if_true]
    | false =>
      rw [hr] at hp
      simp only [Bool.false_eq_true, if_false, List.mem_cons, List.mem_singleton,
        List.not_mem_nil, or_false] at hp
      obtain ⟨hpe, hps⟩ := bpass_false key (a.take (j + 1)) hr
      rcases hp with hp | hp
      · subst hp
        exact ⟨hj, by simp only [bubbleLoop, hr, Bool.false_eq_true, if_false], rfl⟩
      · subst hp
        have ha : (bpass key (a.take (j + 1))).1 ++ a.drop (j + 1) = a := by
          rw [hpe, List.take_append_drop]
        have hsorted : SortedBy key (a.take j) := by
          have ht : a.take j = (a.take (j + 1)).take j := by
            rw [List.take_take, min_eq_left (by omega)]
          rw [ht]
          exact sortedBy_take_of_sortedBy hps j
        refine ⟨?_, ?_, ?_⟩
        · show j ≤ ((bpass key (a.take (j + 1))).1 ++ a.drop (j + 1)).length
          rw [ha]; omega
        · show bubbleLoop key j ((bpass key (a.take (j + 1))).1 ++ a.drop (j + 1)) =
            bubbleLoop key (j + 1) a
          rw [ha, bubbleLoop_of_sorted_take key j a hsorted]
          simp only [bubbleLoop, hr, Bool.false_eq_true, if_false, ha]
        · show ((bpass key (a.take (j + 1))).1 ++ a.drop (j + 1)).length = a.length
          rw [ha]

/-- Every state the loop passes through already carries the final (sorted)
content in the positions at or beyond its loop counter: the state entered
with counter `k` agrees with the reference sort on the last `n - k`
positions, and the loop never writes there again. -/
theorem bubbleTrace_drop (key : α → κ) (arr : List α) :
    ∀ p ∈ bubbleTrace key arr.length arr,
      p.2.drop p.1 = (sortedRef key arr).drop p.1 := by
  intro p hp
  obtain ⟨h1, h2, _⟩ := bubbleLoop_run_of_trace key arr.length arr le_rfl p hp
  have hframe := bubbleLoop_drop key p.1 p.2 h1
  rw [← hframe, h2]
  show (bubble_sort key arr).drop p.1 = _
  rw [bubble_sort_eq_sortedRef]

/-! ## Properties of insertion sort -/

theorem shiftInsert_perm (key : α → κ) (x : α) (l : List α) :
    List.Perm (shiftInsert key x l) (x :: l) := by
  induction l with
  | nil => exact List.Perm.refl _
  | cons y ys ih =>
    rw [shiftInsert]
    split
    · exact (ih.cons y).trans (List.Perm.swap x y ys)
    · exact List.Perm.refl _

theorem shiftInsert_keyFilter (key : α → κ) (k : κ) (x : α) (l : List α) :
    keyFilter key k (shiftInsert key x l) =
      if key x = k then x :: keyFilter key k l else keyFilter key k l := by
  induction l with
  | nil => rw [shiftInsert, keyFilter_cons, keyFilter_nil]
  | cons y ys ih =>
    rw [shiftInsert]
    split
    · rename_i hc
      rw [keyFilter_cons, keyFilter_cons, ih]
      by_cases hxk : key x = k
      · have hyk : key y ≠ k := fun h => absurd hc (by rw [hxk, h]; exact lt_irrefl k)
        simp [hxk, hyk]
      · simp [hxk]
    · rw [keyFilter_cons, keyFilter_cons]

theorem shiftInsert_revSorted (key : α → κ) {x : α} {l : List α}
    (h : List.Pairwise (fun a b => key b ≤ key a) l) :
    List.Pairwise (fun a b => key b ≤ key a) (shiftInsert key x l) := by
  induction l with
  | nil => exact List.pairwise_singleton _ _
  | cons y ys ih =>
    rcases List.pairwise_cons.1 h with ⟨hy, hys⟩
    rw [shiftInsert]
    split
    · rename_i hc
      refine List.pairwise_cons.2 ⟨?_, ih hys⟩
      intro z hz
      rcases List.mem_cons.1 ((shiftInsert_perm key x ys).subset hz) with h' | h'
      · exact h' ▸ le_of_lt hc
      · exact hy z h'
    · rename_i hc
      refine List.pairwise_cons.2 ⟨?_, h⟩
      intro z hz
      rcases List.mem_cons.1 hz with h' | h'
      · exact h' ▸ not_lt.1 hc
      · exact le_trans (hy z h') (not_lt.1 hc)

theorem insLoop_keyFilter (key : α → κ) (k : κ) :
    ∀ (xs revp : List α),
      keyFilter key k (insLoop key revp xs) =
        (keyFilter key k revp).reverse ++ keyFilter key k xs := by
  intro xs
  induction xs with
  | nil =>
    intro revp
    rw [insLoop, keyFilter_nil, List.append_nil]
    simp [keyFilter]
  | cons x xs ih =>
    intro revp
    rw [insLoop, ih, shiftInsert_keyFilter, keyFilter_cons]
    by_cases hxk : key x = k
    · simp [hxk]
    · simp [hxk]

theorem insLoop_sorted (key : α → κ) :
    ∀ (xs revp : List α), List.Pairwise (fun a b => key b ≤ key a) revp →
      SortedBy key (insLoop key revp xs) := by
  intro xs
  induction xs with
  | nil =>
    intro revp h
    rw [insLoop]
    exact List.pairwise_reverse.2 h
  | cons x xs ih =>
    intro revp h
    rw [insLoop]
    exact ih _ (shiftInsert_revSorted key h)

theorem insertion_sort_sortedBy (key : α → κ) (arr : List α) :
    SortedBy key (insertion_sort key arr) :=
  insLoop_sorted key arr [] List.Pairwise.nil

theorem insertion_sort_keyFilter (key : α → κ) (k : κ) (arr : List α) :
    keyFilter key k (insertion_sort key arr) = keyFilter key k arr := by
  rw [insertion_sort, insLoop_keyFilter]
  rfl

theorem insertion_sort_eq_sortedRef (key : α → κ) (arr : List α) :
    insertion_sort key arr = sortedRef key arr :=
  eq_sortedRef_of_sorted_stable (insertion_sort_sortedBy key arr)
    (fun k => insertion_sort_keyFilter key k arr)

/-! ## Properties of merge sort -/

theorem sortedBy_head_le {key : α → κ} {x : α} {xs : List α}
    (h : SortedBy key (x :: xs)) : ∀ z ∈ x :: xs, key x ≤ key z := by
  intro z hz
  rcases List.mem_cons.1 hz with h' | h'
  · exact le_of_eq (congrArg key h'.symm)
  · exact (List.pairwise_cons.1 h).1 z h'

theorem sortedBy_of_length_le_one {key : α → κ} {l : List α} (h : l.length ≤ 1) :
    SortedBy key l := by
  match l with
  | [] => exact List.Pairwise.nil
  | [x] => exact List.pairwise_singleton _ _
  | x :: y :: t => simp at h

theorem mergeLists_nil_left (key : α → κ) (r : List α) : mergeLists key [] r = r := by
  rw [mergeLists]

theorem mergeLists_nil_right (key : α → κ) (l : List α) : mergeLists key l [] = l := by
  cases l with
  | nil => rw [mergeLists]
  | cons x xs => rw [mergeLists]; simp

theorem mergeLists_cons_cons (key : α → κ) (x y : α) (xs ys : List α) :
    mergeLists key (x :: xs) (y :: ys) =
      if key x ≤ key y then x :: mergeLists key xs (y :: ys)
      else y :: mergeLists key (x :: xs) ys := by
  rw [mergeLists]

theorem mem_mergeLists (key : α → κ) :
    ∀ l r : List α, ∀ z, z ∈ mergeLists key l r ↔ z ∈ l ∨ z ∈ r := by
  intro l
  induction l with
  | nil => intro r z; simp [mergeLists_nil_left]
  | cons x xs ihl =>
    intro r
    induction r with
    | nil => intro z; simp [mergeLists_nil_right]
    | cons y ys ihr =>
      intro z
      rw [mergeLists_cons_cons]
      split
      · rw [List.mem_cons, ihl (y :: ys) z]
        simp [List.mem_cons, or_assoc]
      · rw [List.mem_cons, ihr z]
        simp only [List.mem_cons]
        tauto

theorem mergeLists_sorted (key : α → κ) :
    ∀ l r : List α, SortedBy key l → SortedBy key r →
      SortedBy key (mergeLists key l r) := by
  intro l
  induction l with
  | nil => intro r _ hr; rw [mergeLists_nil_left]; exact hr
  | cons x xs ihl =>
    intro r
    induction r with
    | nil => intro hl _; rw [mergeLists_nil_right]; exact hl
    | cons y ys ihr =>
      intro hl hr
      rw [mergeLists_cons_cons]
      split
      · rename_i hxy
        refine List.pairwise_cons.2 ⟨?_, ihl (y :: ys) (List.pairwise_cons.1 hl).2 hr⟩
        intro z hz
        rcases (mem_mergeLists key xs (y :: ys) z).1 hz with h | h
        · exact (List.pairwise_cons.1 hl).1 z h
        · rcases List.mem_cons.1 h with h' | h'
          · exact h' ▸ hxy
          · exact le_trans hxy ((List.pairwise_cons.1 hr).1 z h')
      · rename_i hxy
        push_neg at hxy
        refine List.pairwise_cons.2 ⟨?_, ihr hl (List.pairwise_cons.1 hr).2⟩
        intro z hz
        rcases (mem_mergeLists key (x :: xs) ys z).1 hz with h | h
        · exact le_trans (le_of_lt hxy) (sortedBy_head_le hl z h)
        · exact (List.pairwise_cons.1 hr).1 z h

theorem mergeLists_keyFilter (key : α → κ) (k : κ) :
    ∀ l r : List α, SortedBy key l →
      keyFilter key k (mergeLists key l r) =
        keyFilter key k l ++ keyFilter key k r := by
  intro l
  induction l with
  | nil => intro r _; rw [mergeLists_nil_left, keyFilter_nil, List.nil_append]
  | cons x xs ihl =>
    intro r
    induction r with
    | nil => intro _; rw [mergeLists_nil_right, keyFilter_nil, List.append_nil]
    | cons y ys ihr =>
      intro hl
      rw [mergeLists_cons_cons]
      split
      · rename_i hxy
        rw [keyFilter_cons, ihl (y :: ys) (List.pairwise_cons.1 hl).2]
        by_cases hxk : key x = k
        · simp [keyFilter_cons, hxk]
        · simp [keyFilter_cons, hxk]
      · rename_i hxy
        push_neg at hxy
        rw [keyFilter_cons, ihr hl]
        by_cases hyk : key y = k
        · have hall : ∀ z ∈ x :: xs, key z ≠ k := by
            intro z hz hzk
            exact absurd (lt_of_lt_of_le hxy (sortedBy_head_le hl z hz))
              (by rw [hzk, hyk]; exact lt_irrefl k)
          have hxk₂ : key x ≠ k := hall x (List.mem_cons_self x xs)
          have hxs : keyFilter key k xs = [] := by
            rw [keyFilter, List.filter_eq_nil_iff]
            intro z hz
            simp only [decide_eq_true_eq]
            exact hall z (List.mem_cons_of_mem x hz)
          simp [keyFilter_cons, hyk, hxk₂, hxs]
        · simp [keyFilter_cons, hyk]

theorem merge_sort_sorted_aux (key : α → κ) :
    ∀ (n : ℕ) (l : List α), l.length ≤ n → SortedBy key (merge_sort key l) := by
  intro n
  induction n with
  | zero =>
    intro l hl
    rw [merge_sort]
    split
    · exact sortedBy_of_length_le_one (by omega)
    · omega
  | succ n ihn =>
    intro l hl
    rw [merge_sort]
    split
    · rename_i h1
      exact sortedBy_of_length_le_one h1
    · rename_i h1
      push_neg at h1
      refine mergeLists_sorted key _ _ ?_ ?_
      · exact ihn _ (by rw [List.length_take]; omega)
      · exact ihn _ (by rw [List.length_drop]; omega)

theorem merge_sort_sortedBy (key : α → κ) (l : List α) : SortedBy key (merge_sort key l) :=
  merge_sort_sorted_aux key l.length l le_rfl

theorem merge_sort_keyFilter_aux (key : α → κ) (k : κ) :
    ∀ (n : ℕ) (l : List α), l.length ≤ n →
      keyFilter key k (merge_sort key l) = keyFilter key k l := by
  intro n
  induction n with
  | zero =>
    intro l hl
    rw [merge_sort]
    split
    · rfl
    · omega
  | succ n ihn =>
    intro l hl
    rw [merge_sort]
    split
    · rfl
    · rename_i h1
      push_neg at h1
      rw [mergeLists_keyFilter key k _ _ (merge_sort_sortedBy key _),
        ihn _ (by rw [List.length_take]; omega),
        ihn _ (by rw [List.length_drop]; omega),
        ← keyFilter_append, List.take_append_drop]

theorem merge_sort_keyFilter (key : α → κ) (k : κ) (l : List α) :
    keyFilter key k (merge_sort key l) = keyFilter key k l :=
  merge_sort_keyFilter_aux key k l.length l le_rfl

theorem merge_sort_eq_sortedRef (key : α → κ) (arr : List α) :
    merge_sort key arr = sortedRef key arr :=
  eq_sortedRef_of_sorted_stable (merge_sort_sortedBy key arr)
    (fun k => merge_sort_keyFilter key k arr)

/-! ## Properties of quick sort -/

theorem keyFilter_filter_true (key : α → κ) (k : κ) (p : α → Bool) (l : List α)
    (h : ∀ x ∈ l, key x = k → p x = true) :
    keyFilter key k (l.filter p) = keyFilter key k l := by
  rw [keyFilter, keyFilter, List.filter_filter]
  refine List.filter_congr ?_
  intro a ha
  by_cases hk : key a = k
  · simp [hk, h a ha hk]
  · simp [hk]

theorem keyFilter_filter_false (key : α → κ) (k : κ) (p : α → Bool) (l : List α)
    (h : ∀ x ∈ l, key x = k → p x = false) :
    keyFilter key k (l.filter p) = [] := by
  rw [keyFilter, List.filter_filter, List.filter_eq_nil_iff]
  intro a ha
  simp only [Bool.and_eq_true, decide_eq_true_eq, not_and]
  intro hk
  rw [h a ha hk]
  simp

/-- Unfolding of `quick_sort` on an input of length at least 2, with the
pivot element abstracted: it is some element of the input. -/
theorem quick_sort_eq (key : α → κ) (l : List α) (h : ¬ l.length ≤ 1) :
    ∃ e, e ∈ l ∧ quick_sort key l =
      quick_sort key (l.filter (fun x => decide (key x < key e))) ++
        l.filter (fun x => decide (key x = key e)) ++
        quick_sort key (l.filter (fun x => decide (key e < key x))) := by
  refine ⟨l.get ⟨l.length / 2, Nat.div_lt_self (by omega) (by omega)⟩, l.get_mem _ _, ?_⟩
  rw [quick_sort, dif_neg h]

theorem quick_sort_keyFilter_aux (key : α → κ) (k : κ) :
    ∀ (n : ℕ) (l : List α), l.length ≤ n →
      keyFilter key k (quick_sort key l) = keyFilter key k l := by
  intro n
  induction n with
  | zero =>
    intro l hl
    rw [quick_sort, dif_pos (by omega)]
  | succ n ihn =>
    intro l hl
    by_cases h1 : l.length ≤ 1
    · rw [quick_sort, dif_pos h1]
    · obtain ⟨e, he, heq⟩ := quick_sort_eq key l h1
      rw [heq]
      have hlt : ∀ p : α → Bool, p e = false → (l.filter p).length ≤ n := by
        intro p hp
        have hx : (l.filter p).length < l.length :=
          List.length_filter_lt_length_iff_exists.2 ⟨e, he, by simp [hp]⟩
        omega
      rw [keyFilter_append, keyFilter_append,
        ihn _ (hlt _ (by simp)), ihn _ (hlt _ (by simp))]
      rcases lt_trichotomy k (key e) with hk | hk | hk
      · rw [keyFilter_filter_true key k _ l
            (by intro x _ hx; simp only [decide_eq_true_eq]; rw [hx]; exact hk),
          keyFilter_filter_false key k _ l
            (by intro x _ hx; simp only [decide_eq_false_iff_not]; rw [hx]; exact ne_of_lt hk),
          keyFilter_filter_false key k _ l
            (by intro x _ hx; simp only [decide_eq_false_iff_not]; rw [hx];
                exact not_lt.2 (le_of_lt hk)),
          List.append_nil, List.append_nil]
      · rw [keyFilter_filter_false key k _ l
            (by intro x _ hx; simp only [decide_eq_false_iff_not]; rw [hx, hk];
                exact lt_irrefl _),
          keyFilter_filter_true key k _ l
            (by intro x _ hx; simp only [decide_eq_true_eq]; rw [hx, hk]),
          keyFilter_filter_false key k _ l
            (by intro x _ hx; simp only [decide_eq_false_iff_not]; rw [hx, hk];
                exact lt_irrefl _),
          List.nil_append, List.append_nil]
      · rw [keyFilter_filter_false key k _ l
            (by intro x _ hx; simp only [decide_eq_false_iff_not]; rw [hx];
                exact not_lt.2 (le_of_lt hk)),
          keyFilter_filter_false key k _ l
            (by intro x _ hx; simp only [decide_eq_false_iff_not]; rw [hx];
                exact (ne_of_gt hk)),
          keyFilter_filter_true key k _ l
            (by intro x _ hx; simp only [decide_eq_true_eq]; rw [hx]; exact hk),
          List.nil_append, List.nil_append]

theorem quick_sort_keyFilter (key : α → κ) (k : κ) (l : List α) :
    keyFilter key k (quick_sort key l) = keyFilter key k l :=
  quick_sort_keyFilter_aux key k l.length l le_rfl

theorem mem_quick_sort {key : α → κ} {l : List α} {z : α} :
    z ∈ quick_sort key l ↔ z ∈ l := by
  constructor
  · intro hz
    have hm : z ∈ keyFilter key (key z) (quick_sort key l) := mem_keyFilter.2 ⟨hz, rfl⟩
    rw [quick_sort_keyFilter] at hm
    exact (mem_keyFilter.1 hm).1
  · intro hz
    have hm : z ∈ keyFilter key (key z) l := mem_keyFilter.2 ⟨hz, rfl⟩
    rw [← quick_sort_keyFilter key (key z) l] at hm
    exact (mem_keyFilter.1 hm).1

theorem quick_sort_sorted_aux (key : α → κ) :
    ∀ (n : ℕ) (l : List α), l.length ≤ n → SortedBy key (quick_sort key l) := by
  intro n
  induction n with
  | zero =>
    intro l hl
    rw [quick_sort, dif_pos (by omega)]
    exact sortedBy_of_length_le_one (by omega)
  | succ n ihn =>
    intro l hl
    by_cases h1 : l.length ≤ 1
    · rw [quick_sort, dif_pos h1]
      exact sortedBy_of_length_le_one h1
    · obtain ⟨e, he, heq⟩ := quick_sort_eq key l h1
      rw [heq]
      have hlt : ∀ p : α → Bool, p e = false → (l.filter p).length ≤ n := by
        intro p hp
        have hx : (l.filter p).length < l.length :=
          List.length_filter_lt_length_iff_exists.2 ⟨e, he, by simp [hp]⟩
        omega
      have hm1 : ∀ z ∈ quick_sort key (l.filter (fun x => decide (key x < key e))),
          key z < key e := by
        intro z hz
        have := List.mem_filter.1 (mem_quick_sort.1 hz)
        simpa using this.2
      have hm2 : ∀ z ∈ l.filter (fun x => decide (key x = key e)), key z = key e := by
        intro z hz
        have := List.mem_filter.1 hz
        simpa using this.2
      have hm3 : ∀ z ∈ quick_sort key (l.filter (fun x => decide (key e < key x))),
          key e < key z := by
        intro z hz
        have := List.mem_filter.1 (mem_quick_sort.1 hz)
        simpa using this.2
      rw [List.append_assoc]
      refine List.pairwise_append.2 ⟨ihn _ (hlt _ (by simp)), ?_, ?_⟩
      · refine List.pairwise_append.2 ⟨?_, ihn _ (hlt _ (by simp)), ?_⟩
        · refine List.pairwise_of_forall_mem_list ?_
          intro a ha b hb
          rw [hm2 a ha, hm2 b hb]
        · intro a ha b hb
          exact le_of_lt (lt_of_le_of_lt (le_of_eq (hm2 a ha)) (hm3 b hb))
      · intro a ha b hb
        rcases List.mem_append.1 hb with h' | h'
        · exact le_of_lt (lt_of_lt_of_le (hm1 a ha) (le_of_eq (hm2 b h').symm))
        · exact le_of_lt (lt_trans (hm1 a ha) (hm3 b h'))

theorem quick_sort_sortedBy (key : α → κ) (l : List α) : SortedBy key (quick_sort key l) :=
  quick_sort_sorted_aux key l.length l le_rfl

theorem quick_sort_eq_sortedRef (key : α → κ) (arr : List α) :
    quick_sort key arr = sortedRef key arr :=
  eq_sortedRef_of_sorted_stable (quick_sort_sortedBy key arr)
    (fun k => quick_sort_keyFilter key k arr)

/-! ## The spec's description of merge sort matches the implementation -/

theorem specMerge_nil_left (key : α → κ) (r : List α) : specMerge key [] r = r := by
  rw [specMerge]

theorem specMerge_nil_right (key : α → κ) (l : List α) : specMerge key l [] = l := by
  cases l with
  | nil => rw [specMerge]
  | cons x xs => rw [specMerge]; simp

theorem specMerge_cons_cons (key : α → κ) (x y : α) (xs ys : List α) :
    specMerge key (x :: xs) (y :: ys) =
      if key y < key x then y :: specMerge key (x :: xs) ys
      else x :: specMerge key xs (y :: ys) := by
  rw [specMerge]

theorem specMerge_eq_mergeLists (key : α → κ) :
    ∀ l r : List α, specMerge key l r = mergeLists key l r := by
  intro l
  induction l with
  | nil => intro r; rw [specMerge_nil_left, mergeLists_nil_left]
  | cons x xs ihl =>
    intro r
    induction r with
    | nil => rw [specMerge_nil_right, mergeLists_nil_right]
    | cons y ys ihr =>
      rw [specMerge_cons_cons, mergeLists_cons_cons]
      by_cases h : key x ≤ key y
      · rw [if_pos h, if_neg (not_lt.2 h), ihl]
      · rw [if_neg h, if_pos (not_le.1 h), ihr]

theorem mergeSortSpec_eq_merge_sort_aux (key : α → κ) :
    ∀ (n : ℕ) (l : List α), l.length ≤ n → mergeSortSpec key l = merge_sort key l := by
  intro n
  induction n with
  | zero =>
    intro l hl
    rw [mergeSortSpec, merge_sort]
    split
    · rfl
    · omega
  | succ n ihn =>
    intro l hl
    rw [mergeSortSpec, merge_sort]
    split
    · rfl
    · rw [specMerge_eq_mergeLists,
        ihn _ (by rw [List.length_take]; omega),
        ihn _ (by rw [List.length_drop]; omega)]

theorem mergeSortSpec_eq_merge_sort (key : α → κ) (l : List α) :
    mergeSortSpec key l = merge_sort key l :=
  mergeSortSpec_eq_merge_sort_aux key l.length l le_rfl

/-! ## Claims -/

/-- C1: for every finite sequence `a` of elements of a totally-ordered type,
each of `bubble_sort`, `insertion_sort`, `merge_sort`, `quick_sort` and
`python_sort` returns a list equal to the platform reference sort of `a`,
which holds the same elements in non-decreasing order. -/
theorem C1_sorts_equal_reference (key : α → κ) (a : List α) :
    bubble_sort key a = sortedRef key a ∧
    insertion_sort key a = sortedRef key a ∧
    merge_sort key a = sortedRef key a ∧
    quick_sort key a = sortedRef key a ∧
    python_sort key a = sortedRef key a ∧
    SortedBy key (sortedRef key a) ∧ List.Perm (sortedRef key a) a :=
  ⟨bubble_sort_eq_sortedRef key a, insertion_sort_eq_sortedRef key a,
    merge_sort_eq_sortedRef key a, quick_sort_eq_sortedRef key a, rfl,
    sortedRef_sortedBy key a, sortedRef_perm key a⟩

/-- C3: `bubble_sort`, `insertion_sort`, `merge_sort` and `python_sort` are
stable: for every key value, the elements with that key appear in the
output exactly as they appear in the input, in the same relative order. -/
theorem C3_stable_sorts (key : α → κ) (a : List α) (k : κ) :
    keyFilter key k (bubble_sort key a) = keyFilter key k a ∧
    keyFilter key k (insertion_sort key a) = keyFilter key k a ∧
    keyFilter key k (merge_sort key a) = keyFilter key k a ∧
    keyFilter key k (python_sort key a) = keyFilter key k a :=
  ⟨bubble_sort_keyFilter key k a, insertion_sort_keyFilter key k a,
    merge_sort_keyFilter key k a, keyFilter_sortedRef key k a⟩

/-- C4, refuted as stated: there is no input over keyed pairs on which
`quick_sort` changes the relative order of equal-keyed elements — the
three-way partition sends every group of equal-keyed elements into the
same (order-preserving) bucket, so the claimed reordering input does not
exist. -/
theorem C4_counterexample : ¬ ∃ (l : List (ℤ × ℤ)) (k : ℤ),
    keyFilter Prod.fst k (quick_sort Prod.fst l) ≠ keyFilter Prod.fst k l := by
  rintro ⟨l, k, h⟩
  exact h (quick_sort_keyFilter Prod.fst k l)

/-- C4, amended: `quick_sort` as implemented is in fact stable — its
three-way partition built by order-preserving scans keeps every group of
equal-keyed elements together and in input order (an incidental property
of this partition scheme, not promised by the contract). -/
theorem C4_quick_sort_incidentally_stable (key : α → κ) (a : List α) (k : κ) :
    keyFilter key k (quick_sort key a) = keyFilter key k a :=
  quick_sort_keyFilter key k a

/-- C5: `merge_sort` follows exactly the spec's scheme: length ≤ 1 returns
the input copy, otherwise split at `mid = len / 2` into `[0,mid)` and
`[mid,end)`, sort both halves recursively, and merge taking the lesser
front, preferring the LEFT front on ties. -/
theorem C5_merge_sort_scheme (key : α → κ) (a : List α) :
    merge_sort key a = mergeSortSpec key a ∧
    (∀ l r : List α, mergeLists key l r = specMerge key l r) :=
  ⟨(mergeSortSpec_eq_merge_sort key a).symm,
    fun l r => (specMerge_eq_mergeLists key l r).symm⟩

/-- C6: every sort function is total on every finite input of mutually
comparable elements — each is a total Lean function (the recursions of
`merge_sort` and `quick_sort` terminate by the length measure), and each
returns a well-defined permutation of its input, with no error outcome in
its type. -/
theorem C6_total_permutations (key : α → κ) (a : List α) :
    List.Perm (bubble_sort key a) a ∧
    List.Perm (insertion_sort key a) a ∧
    List.Perm (merge_sort key a) a ∧
    List.Perm (quick_sort key a) a ∧
    List.Perm (python_sort key a) a := by
  refine ⟨?_, ?_, ?_, ?_, ?_⟩
  · rw [bubble_sort_eq_sortedRef]; exact sortedRef_perm key a
  · rw [insertion_sort_eq_sortedRef]; exact sortedRef_perm key a
  · rw [merge_sort_eq_sortedRef]; exact sortedRef_perm key a
  · rw [quick_sort_eq_sortedRef]; exact sortedRef_perm key a
  · exact sortedRef_perm key a

/-- C7: `run_experiments` measures `bubble_sort` and `insertion_sort` only
at the requested sizes that are at most 1024 (larger sizes are skipped for
those two), while the other three algorithms are measured at every
requested size; all five algorithms appear in the results, each paired
with one recorded row per size it is run at. -/
theorem C7_size_gating (time : String → ℕ → ℕ → ℚ) (sizes : List ℕ) (trials : ℕ)
    (name : String) (hname : name ∈ algoNames) :
    (runExperiments time sizes trials).map Prod.fst = algoNames ∧
    (name, (sizesToRun name sizes).map (measureOne time trials name)) ∈
      runExperiments time sizes trials ∧
    sizesToRun name sizes =
      (if name = "Bubble" ∨ name = "Insertion"
       then sizes.filter (fun s => decide (s ≤ 1024)) else sizes) ∧
    ((sizesToRun name sizes).map (measureOne time trials name)).map (fun r => r.1) =
      sizesToRun name sizes := by
  refine ⟨?_, List.mem_map.2 ⟨name, hname, rfl⟩, rfl, ?_⟩
  · rfl
  · rw [List.map_map]
    have hcomp : ((fun r : ℕ × ℚ × ℚ => r.1) ∘ measureOne time trials name) =
        fun n => n := rfl
    rw [hcomp, List.map_id']

/-- C7 witness: with requested sizes 512 and 2048, Bubble is measured at
size 512 only (2048 is above the 1024 bound and skipped). -/
theorem C7_size_gating_witness :
    (("Bubble" : String) ∈ algoNames) ∧
    sizesToRun "Bubble" [512, 2048] =
      (if ("Bubble" : String) = "Bubble" ∨ ("Bubble" : String) = "Insertion"
       then ([512, 2048] : List ℕ).filter (fun s => decide (s ≤ 1024))
       else [512, 2048]) ∧
    sizesToRun "Bubble" [512, 2048] = [512] :=
  ⟨by decide,
    (C7_size_gating (fun _ _ _ => 0) [512, 2048] 1 "Bubble" (by decide)).2.2.1,
    by decide⟩

/-- C8: every row `run_experiments` records for a measured
`(algorithm, size)` pair is `(n, avg, v)` where `avg` is the arithmetic
mean of the trial times (their sum divided by the number of trials) and
`v` is the population variance — the squared population standard
deviation — with divisor the number of trials, not `trials - 1`. -/
theorem C8_mean_and_population_stdev (time : String → ℕ → ℕ → ℚ) (sizes : List ℕ)
    (trials : ℕ) (htr : 0 < trials) (name : String) (hname : name ∈ algoNames)
    (n : ℕ) (hn : n ∈ sizesToRun name sizes) :
    (name, (sizesToRun name sizes).map (measureOne time trials name)) ∈
      runExperiments time sizes trials ∧
    measureOne time trials name n ∈
      (sizesToRun name sizes).map (measureOne time trials name) ∧
    (trialTimes time trials name n).length = trials ∧
    measureOne time trials name n =
      (n, (trialTimes time trials name n).sum / (trials : ℚ),
        ((trialTimes time trials name n).map
          (fun t => (t - (trialTimes time trials name n).sum / (trials : ℚ)) ^ 2)).sum /
          (trials : ℚ)) := by
  have hlen : (((trialTimes time trials name n).length : ℕ) : ℚ) = (trials : ℚ) := by
    simp [trialTimes]
  refine ⟨List.mem_map.2 ⟨name, hname, rfl⟩, List.mem_map.2 ⟨n, hn, rfl⟩,
    by simp [trialTimes], ?_⟩
  simp only [measureOne, mean, pvariance]
  rw [hlen]

/-- C8 witness: timing the trial index itself over three trials at one
size produces a recorded row whose aggregates are the divisor-3 mean and
population variance of the three elapsed times. -/
theorem C8_mean_and_population_stdev_witness :
    ((0 : ℕ) < 3 ∧ ("Merge" : String) ∈ algoNames ∧
      (128 : ℕ) ∈ sizesToRun "Merge" [128]) ∧
    measureOne (fun _ _ t => (t : ℚ)) 3 "Merge" 128 =
      (128, (trialTimes (fun _ _ t => (t : ℚ)) 3 "Merge" 128).sum / (3 : ℚ),
        ((trialTimes (fun _ _ t => (t : ℚ)) 3 "Merge" 128).map
          (fun t =>
            (t - (trialTimes (fun _ _ t => (t : ℚ)) 3 "Merge" 128).sum / (3 : ℚ)) ^ 2)).sum /
          (3 : ℚ)) :=
  ⟨⟨by decide, by decide, by decide⟩,
    (C8_mean_and_population_stdev (fun _ _ t => (t : ℚ)) [128] 3 (by decide) "Merge"
      (by decide) 128 (by decide)).2.2.2⟩

/-- C9, refuted as stated: an invocation with `--min-power 5 --max-power 3`
(out-of-range power bounds) is NOT rejected at parse time with a usage
error — the arguments parse, and the program runs the experiments with an
empty size list. -/
theorem C9_counterexample :
    mainOutcome "5" "3" "3" "0" = CliOutcome.run [] ∧
    mainOutcome "5" "3" "3" "0" ≠ CliOutcome.usageError := by
  exact ⟨by decide, by decide⟩

/-- C9, amended: non-integer numeric arguments are rejected at parse time
with a usage error; out-of-range power bounds are accepted, and with
`min-power > max-power` the program proceeds to run the experiments on an
empty size list rather than rejecting the invocation. -/
theorem C9_cli_rejection (a b c d : String) :
    ((parseIntToken a = none ∨ parseIntToken b = none ∨
        parseIntToken c = none ∨ parseIntToken d = none) →
      mainOutcome a b c d = CliOutcome.usageError) ∧
    (∀ mn mx t sd : ℤ,
      parseIntToken a = some mn → parseIntToken b = some mx →
      parseIntToken c = some t → parseIntToken d = some sd →
      mainOutcome a b c d = CliOutcome.run (buildSizes mn mx)) ∧
    (∀ mn mx : ℤ, mx < mn → buildSizes mn mx = []) ∧
    parseIntToken "abc" = none := by
  refine ⟨?_, ?_, ?_, by decide⟩
  · intro h
    rcases hA : parseIntToken a with _ | mn <;>
      rcases hB : parseIntToken b with _ | mx <;>
        rcases hC : parseIntToken c with _ | t <;>
          rcases hD : parseIntToken d with _ | sd <;>
            simp_all [mainOutcome]
  · intro mn mx t sd hA hB hC hD
    simp [mainOutcome, hA, hB, hC, hD]
  · intro mn mx h
    simp [buildSizes, show (mx + 1 - mn).toNat = 0 by omega]

/-- C9 witness: a non-integer token is rejected; integer tokens with
`min-power 9 > max-power 4` run the experiments on the empty size list. -/
theorem C9_cli_rejection_witness :
    mainOutcome "abc" "3" "3" "0" = CliOutcome.usageError ∧
    mainOutcome "9" "4" "2" "7" = CliOutcome.run (buildSizes 9 4) ∧
    buildSizes 9 4 = [] :=
  ⟨(C9_cli_rejection "abc" "3" "3" "0").1 (Or.inl (by decide)),
    (C9_cli_rejection "9" "4" "2" "7").2.1 9 4 2 7 (by decide) (by decide) (by decide)
      (by decide),
    (C9_cli_rejection "9" "4" "2" "7").2.2.1 9 4 (by decide)⟩

/-- C10: every state the bubble sort outer loop enters with counter `k`
(after `n - k` completed passes) already holds, in its last `n - k`
positions, the `n - k` largest elements in their final sorted positions
(they agree with the reference sort there); the rest of the loop never
changes those positions and ends in the final result; and removing the
zero-swap early exit changes nothing. -/
theorem C10_bubble_invariant (key : α → κ) (arr : List α) :
    (∀ p ∈ bubbleTrace key arr.length arr,
        p.2.drop p.1 = (sortedRef key arr).drop p.1 ∧
        (bubbleLoop key p.1 p.2).drop p.1 = p.2.drop p.1 ∧
        bubbleLoop key p.1 p.2 = bubble_sort key arr) ∧
    (∀ (j : ℕ) (a : List α), bubbleLoopNoExit key j a = bubbleLoop key j a) := by
  constructor
  · intro p hp
    obtain ⟨h1, h2, _⟩ := bubbleLoop_run_of_trace key arr.length arr le_rfl p hp
    exact ⟨bubbleTrace_drop key arr p hp, bubbleLoop_drop key p.1 p.2 h1, h2⟩
  · exact fun j a => bubbleLoopNoExit_eq_bubbleLoop key j a

/-- C10 witness: on `[2, 1]` the state `[1, 2]` entered with counter 1
(after one pass) already has the final sorted content at position 1. -/
theorem C10_bubble_invariant_witness :
    ((1, [1, 2]) ∈ bubbleTrace (id : ℤ → ℤ) ([2, 1] : List ℤ).length [2, 1]) ∧
    (([1, 2] : List ℤ).drop 1 = (sortedRef (id : ℤ → ℤ) [2, 1]).drop 1 ∧
      (bubbleLoop (id : ℤ → ℤ) 1 [1, 2]).drop 1 = ([1, 2] : List ℤ).drop 1 ∧
      bubbleLoop (id : ℤ → ℤ) 1 [1, 2] = bubble_sort (id : ℤ → ℤ) [2, 1]) :=
  ⟨by decide,
    (C10_bubble_invariant (id : ℤ → ℤ) [2, 1]).1 (1, [1, 2]) (by decide)⟩
